import Mathlib

/-!
Verification of the `rmassets.py` utility: a shallow embedding of its
discovery, extraction and reconciliation logic, followed by theorems about
the claims of the specification.

Conventions of the embedding:
* Python strings are Lean `String`s (scanners work on `String.data`,
  i.e. `List Char`); ASCII case folding models `str.lower`.
* Python sets of strings are deduplicated `List String`s used through
  membership.
* The filesystem and the operator are an explicit `World` record of
  oracle functions; `os.remove` effects are collected as the list of
  removed paths and replayed by `applyRemovals`.
* `re` scans are embedded as deterministic scanners implementing the
  leftmost, non-overlapping, greedy semantics of each concrete pattern.
-/

/-- Python whitespace for `str.strip` / regex white space (ASCII range). -/
def pySpace (c : Char) : Bool :=
  c = ' ' || c = '\t' || c = '\n' || c = '\r' || c = '\x0b' || c = '\x0c'

/-- Python `str.strip()` on a character list: drop whitespace from both ends. -/
def stripL (s : List Char) : List Char :=
  ((s.dropWhile pySpace).reverse.dropWhile pySpace).reverse

/-- POSIX `os.path.basename` on a character list: the part after the last slash. -/
def basenameL (s : List Char) : List Char :=
  (s.reverse.takeWhile (fun c => c ≠ '/')).reverse

/-- Python `str.strip()` at the `String` level. -/
def pyStrip (s : String) : String := String.mk (stripL s.data)

/-- Python `str.lower()` at the `String` level (ASCII case folding). -/
def pyLower (s : String) : String := String.mk (s.data.map Char.toLower)

/-- Split a list at the first character satisfying `stop`: returns the part
before it and the part after it (the stop character is consumed). -/
def splitAtFirst (stop : Char → Bool) : List Char → Option (List Char × List Char)
  | [] => none
  | c :: cs =>
    if stop c then some ([], cs)
    else (splitAtFirst stop cs).map (fun p => (c :: p.1, p.2))

/-- Generic scanner: at each position try the matcher `tm`; on a match emit
the capture and resume after the match (non-overlapping), otherwise advance
one character.  `fuel` bounds the recursion; every matcher used consumes at
least one character, so `fuel = s.length` realizes `re.finditer`. -/
def scanAux (tm : List Char → Option (List Char × List Char)) :
    Nat → List Char → List (List Char)
  | 0, _ => []
  | _ + 1, [] => []
  | fuel + 1, c :: rest =>
    match tm (c :: rest) with
    | some (cap, after) => cap :: scanAux tm fuel after
    | none => scanAux tm fuel rest

/-- Run a matcher over a whole character list, `re.finditer` style. -/
def scanFor (tm : List Char → Option (List Char × List Char))
    (s : List Char) : List (List Char) :=
  scanAux tm s.length s

/-! ### Pattern 1: inline Markdown images -/

/-- Matcher for one occurrence of the regex
pattern 1 of the extractor (inline image): bang, bracketed alt text
without a closing bracket inside, then a parenthesized target of at least
one non-parenthesis character.  Returns the raw capture and the suffix
after the match. -/
def tryMdImage : List Char → Option (List Char × List Char)
  | '!' :: '[' :: rest =>
    match splitAtFirst (fun c => c = ']') rest with
    | none => none
    | some (_, afterBracket) =>
      match afterBracket with
      | '(' :: rest2 =>
        match splitAtFirst (fun c => c = ')') rest2 with
        | none => none
        | some (cap, after) => if cap = [] then none else some (cap, after)
      | _ => none
  | _ => none

/-- Post-processing of a pattern-1 capture, as in the source: strip, remove
a surrounding angle-bracket pair, and when a space is present and the
target is unquoted keep only the first whitespace-delimited token. -/
def processMdTarget (cap : List Char) : List Char :=
  let raw := stripL cap
  let raw2 :=
    if raw.head? = some '<' ∧ raw.getLast? = some '>' then
      stripL (raw.drop 1).dropLast
    else raw
  if raw2.contains ' ' ∧ raw2.count '"' < 2 ∧ raw2.count '\'' < 2 then
    raw2.takeWhile (fun c => !(pySpace c))
  else raw2

/-! ### Pattern 2: HTML img tags -/

/-- Match `src=` (case-insensitive), a quote, a nonempty run of non-quote
characters, and a closing quote of either kind. -/
def matchSrc : List Char → Option (List Char × List Char)
  | a :: b :: c :: d :: q :: rest =>
    if a.toLower = 's' ∧ b.toLower = 'r' ∧ c.toLower = 'c' ∧ d = '='
        ∧ (q = '"' ∨ q = '\'') then
      match splitAtFirst (fun x => x = '"' || x = '\'') rest with
      | none => none
      | some (cap, after) => if cap = [] then none else some (cap, after)
    else none
  | _ => none

/-- Greedy search for the gap consumed by the one-or-more non-gt part of
pattern 2: try the largest gap first (the regex quantifier is greedy),
going down to a gap of one character. -/
def trySrcFrom (rest : List Char) : Nat → Option (List Char × List Char)
  | 0 => none
  | j + 1 =>
    match matchSrc (rest.drop (j + 1)) with
    | some r => some r
    | none => trySrcFrom rest j

/-- Matcher for pattern 2 of the extractor: a case-insensitive img tag
open, at least one non-gt character, then a quoted src value. -/
def tryHtmlImg : List Char → Option (List Char × List Char)
  | c0 :: c1 :: c2 :: c3 :: rest =>
    if c0 = '<' ∧ c1.toLower = 'i' ∧ c2.toLower = 'm' ∧ c3.toLower = 'g' then
      trySrcFrom rest ((rest.takeWhile (fun c => c ≠ '>')).length)
    else none
  | _ => none

/-! ### Pattern 3: reference-style definitions (multiline anchored) -/

/-- Matcher for pattern 3 at a line start: optional whitespace, a
bracketed nonempty identifier, a colon, optional whitespace, then a
nonempty run of non-whitespace characters captured. -/
def tryRefDef (s : List Char) : Option (List Char × List Char) :=
  match s.dropWhile pySpace with
  | '[' :: rest =>
    match splitAtFirst (fun c => c = ']') rest with
    | none => none
    | some (idpart, after) =>
      if idpart = [] then none
      else
        match after with
        | ':' :: rest2 =>
          let rest3 := rest2.dropWhile pySpace
          let cap := rest3.takeWhile (fun c => !(pySpace c))
          if cap = [] then none else some (cap, rest3.drop cap.length)
        | _ => none
  | _ => none

/-- Scanner for pattern 3: matches are only attempted at the start of the
text or right after a newline (the multiline caret), non-overlapping.  A
successful capture ends in a non-whitespace character, so the position
after a match is never a line start. -/
def scanRefDefs : Nat → Bool → List Char → List (List Char)
  | 0, _, _ => []
  | _ + 1, _, [] => []
  | fuel + 1, atStart, c :: rest =>
    if atStart then
      match tryRefDef (c :: rest) with
      | some (cap, after) => cap :: scanRefDefs fuel false after
      | none => scanRefDefs fuel (c = '\n') rest
    else scanRefDefs fuel (c = '\n') rest

/-! ### Pattern 4: bare asset-folder paths -/

/-- First character class of pattern 4: word characters, dash, dot and
either slash (ASCII word characters). -/
def inAssetPref (c : Char) : Bool :=
  c.isAlphanum || c = '_' || c = '-' || c = '.' || c = '/' || c = '\\'

/-- Capture character class of pattern 4: word characters, dot, dash,
space, percent, parentheses, plus and comma. -/
def inAssetName (c : Char) : Bool :=
  c.isAlphanum || c = '_' || c = '.' || c = '-' || c = ' ' || c = '%'
    || c = '(' || c = ')' || c = '+' || c = ','

/-- Match the literal dot-assets marker, a separator, then a greedy
capture from the name class closed by a literal parenthesis.  The closing
parenthesis is itself in the name class, so the greedy capture is
everything up to the last parenthesis inside the maximal class run. -/
def tryAssetsAt : List Char → Option (List Char × List Char)
  | '.' :: 'a' :: 's' :: 's' :: 'e' :: 't' :: 's' :: sep :: rest =>
    if sep = '/' ∨ sep = '\\' then
      let run := rest.takeWhile inAssetName
      let tailLen := (run.reverse.takeWhile (fun c => c ≠ ')')).length
      if tailLen = run.length then none
      else
        let e := run.length - 1 - tailLen
        if e = 0 then none
        else some (run.take e, rest.drop (e + 1))
    else none
  | _ => none

/-- Greedy search for the length of the one-or-more prefix part of
pattern 4 (largest first, at least one character). -/
def tryAssetsFrom (s : List Char) : Nat → Option (List Char × List Char)
  | 0 => none
  | p + 1 =>
    match tryAssetsAt (s.drop (p + 1)) with
    | some r => some r
    | none => tryAssetsFrom s p

/-- Matcher for pattern 4 of the extractor. -/
def tryAssetLike (s : List Char) : Option (List Char × List Char) :=
  tryAssetsFrom s ((s.takeWhile inAssetPref).length)

/-! ### The extractor -/

/-- The extractor `extract_image_paths`: union of the four pattern scans, each recorded
through `os.path.basename` (with the stripping the source applies), with
the empty string discarded; the Python set is a deduplicated list used
through membership. -/
def extract_image_paths (markdown : String) : List String :=
  let md := markdown.data
  let p1 := (scanFor tryMdImage md).map (fun cap => basenameL (processMdTarget cap))
  let p2 := (scanFor tryHtmlImg md).map (fun cap => basenameL (stripL cap))
  let p3 := (scanRefDefs md.length true md).map (fun cap => basenameL (stripL cap))
  let p4 := (scanFor tryAssetLike md).map (fun cap => basenameL cap)
  (((p1 ++ p2 ++ p3 ++ p4).map String.mk).filter (fun r => r ≠ "")).dedup

/-! ### Paths: `os.path.splitext` and `os.path.join` (POSIX) -/

/-- Split a character list into the part up to and including the last
slash and the part after it. -/
def lastSlashSplit (s : List Char) : List Char × List Char :=
  let rev := s.reverse
  ((rev.dropWhile (fun c => c ≠ '/')).reverse, (rev.takeWhile (fun c => c ≠ '/')).reverse)

/-- POSIX `os.path.splitext` applied to a basename: split at the last dot
unless every character before it is a dot (leading dots never start an
extension). -/
def splitextName (name : List Char) : List Char × List Char :=
  let extRev := name.reverse.takeWhile (fun c => c ≠ '.')
  if extRev.length = name.length then (name, [])
  else
    let stem := name.take (name.length - extRev.length - 1)
    if stem.all (fun c => c = '.') then (name, [])
    else (stem, name.drop (name.length - extRev.length - 1))

/-- POSIX `os.path.splitext`. -/
def splitext (p : String) : String × String :=
  let dn := lastSlashSplit p.data
  let se := splitextName dn.2
  (String.mk (dn.1 ++ se.1), String.mk se.2)

/-- POSIX `os.path.join` with two arguments. -/
def joinPath (a b : String) : String :=
  if b.data.head? = some '/' then b
  else if a.data = [] ∨ a.data.getLast? = some '/' then a ++ b
  else a ++ "/" ++ b

/-! ### The world: filesystem and operator oracles -/

/-- The ambient state the script interacts with: directory and file
predicates, directory listings, file contents (or a read error), whether
an `os.remove` call on a path succeeds, and the operator's reply to the
confirmation prompt. -/
@[ext] structure World where
  isDir : String → Bool
  isFile : String → Bool
  listdir : String → List String
  readFile : String → Except String String
  removeOk : String → Bool
  answer : String

/-- The asset directory the script pairs with a document: extension
stripped, fixed suffix appended. -/
def assetDirOf (md_path : String) : String := (splitext md_path).1 ++ ".assets"

/-- The listing the script considers: entries of the asset directory that
are regular files. -/
def allFilesOf (w : World) (asset_dir : String) : List String :=
  (w.listdir asset_dir).filter (fun f => w.isFile (joinPath asset_dir f))

/-- The unused list: on-disk names not present in the reference set,
comparing by exact string equality. -/
def unusedOf (all_files referenced : List String) : List String :=
  all_files.filter (fun f => !(referenced.contains f))

/-- The confirmation test the script applies to the operator's reply:
strip surrounding whitespace, lowercase, compare with the two affirmative
words. -/
def confirmAffirmative (ans : String) : Bool :=
  let a := pyLower (pyStrip ans)
  a = "y" || a = "yes"

/-- The deletion loop: attempt each unused file independently; a failed
removal is skipped and the loop continues.  Returns the success count and
the successfully removed paths. -/
def deleteLoop (w : World) (asset_dir : String) : List String → Nat × List String
  | [] => (0, [])
  | f :: fs =>
    let fp := joinPath asset_dir f
    if w.removeOk fp then
      let r := deleteLoop w asset_dir fs
      (r.1 + 1, fp :: r.2)
    else deleteLoop w asset_dir fs

/-- The reconciler `process_markdown`: read the document, extract references, locate the
asset directory, compute the unused list and (subject to the mode flags
and confirmation) delete.  The `Except` error is the uncaught read
exception; the `ok` payload is the deletion count together with the list
of removed paths (the filesystem effect of the call). -/
def process_markdown (w : World) (md_path : String)
    (dry_run assume_yes : Bool) : Except String (Nat × List String) :=
  match w.readFile md_path with
  | .error e => .error e
  | .ok text =>
    if !(w.isDir (assetDirOf md_path)) then .ok (0, [])
    else if (allFilesOf w (assetDirOf md_path)).isEmpty then .ok (0, [])
    else if (unusedOf (allFilesOf w (assetDirOf md_path))
        (extract_image_paths text)).isEmpty then .ok (0, [])
    else if dry_run then .ok (0, [])
    else if !assume_yes ∧ !(confirmAffirmative w.answer) then .ok (0, [])
    else .ok (deleteLoop w (assetDirOf md_path)
      (unusedOf (allFilesOf w (assetDirOf md_path)) (extract_image_paths text)))

/-- Replay the effect of a batch of successful removals on the world:
the removed paths are no longer files and disappear from directory
listings; nothing else changes. -/
def applyRemovals (w : World) (removed : List String) : World :=
  { w with
    isFile := fun p => w.isFile p && !(removed.contains p)
    listdir := fun d => (w.listdir d).filter (fun f => !(removed.contains (joinPath d f))) }

/-! ### Discovery -/

/-- The lowercased case-insensitive Markdown extension test of the
source. -/
def lowerEndsWithMd (s : String) : Bool :=
  (".md".data).isSuffixOf (s.data.map Char.toLower)

/-- Insert a string into a sorted list (ascending code-point order). -/
def insertSorted (x : String) : List String → List String
  | [] => [x]
  | y :: ys => if x ≤ y then x :: y :: ys else y :: insertSorted x ys

/-- Python `sorted` on a list of strings. -/
def sortStrings (l : List String) : List String := l.foldr insertSorted []

/-- Discovery `find_markdown_files`: directories contribute every immediate entry
with a Markdown extension (with no regular-file check); direct inputs
must be regular files with a Markdown extension; everything else is
skipped.  The result is sorted. -/
def find_markdown_files (w : World) (paths : List String) : List String :=
  let results := paths.flatMap (fun p =>
    if w.isDir p then
      ((w.listdir p).filter (fun name => lowerEndsWithMd name)).map
        (fun name => joinPath p name)
    else if w.isFile p && lowerEndsWithMd p then [p]
    else [])
  sortStrings results

/-! ### The run loop and `main` -/

/-- The per-document loop of `main`: process each document in turn,
catching a per-document exception and continuing; the world is threaded
through the removals of each successful call.  Returns the total deleted
count and the final world. -/
def runDocs (w : World) (docs : List String) (dry_run yes : Bool) :
    Nat × World :=
  match docs with
  | [] => (0, w)
  | md :: rest =>
    match process_markdown w md dry_run yes with
    | .ok r =>
      let next := runDocs (applyRemovals w r.2) rest dry_run yes
      (r.1 + next.1, next.2)
    | .error _ => runDocs w rest dry_run yes

/-- The source's `main` (named `mainRun` here, since `main` is reserved in Lean):
discovery, the empty-result exit code, then the run loop.
Returns the exit code, the total deleted count and the final world. -/
def mainRun (w : World) (paths : List String) (dry_run yes : Bool) :
    Nat × Nat × World :=
  let md_files := find_markdown_files w paths
  if md_files.isEmpty then (1, 0, w)
  else
    let r := runDocs w md_files dry_run yes
    (0, r.1, r.2)

/-! ### Concrete sample worlds for witnesses and counterexamples -/

/-- A one-document world: `doc.md` references `keep.png`; the asset
directory also holds `stale.png`; removals succeed; the operator says
`y`. -/
def w1 : World where
  isDir := fun p => p == "doc.assets"
  isFile := fun p =>
    p == "doc.md" || p == "doc.assets/keep.png" || p == "doc.assets/stale.png"
  listdir := fun p => if p == "doc.assets" then ["keep.png", "stale.png"] else []
  readFile := fun p =>
    if p == "doc.md" then .ok "![x](doc.assets/keep.png)" else .error "missing"
  removeOk := fun _ => true
  answer := "y"

/-- A world whose document references nothing and whose first unused file
cannot be removed (the second can). -/
def w4 : World where
  isDir := fun p => p == "doc.assets"
  isFile := fun p =>
    p == "doc.md" || p == "doc.assets/b.png" || p == "doc.assets/c.png"
  listdir := fun p => if p == "doc.assets" then ["b.png", "c.png"] else []
  readFile := fun p =>
    if p == "doc.md" then .ok "no references here" else .error "missing"
  removeOk := fun p => p != "doc.assets/b.png"
  answer := ""

/-- World `w1` with an operator reply that carries leading whitespace. -/
def w5 : World := { w1 with answer := " y" }

/-- World `w1` with a mixed-case affirmative reply. -/
def wYes : World := { w1 with answer := "Yes" }

/-- A world with an input directory containing a subdirectory whose name
ends in the Markdown extension; nothing is a regular file. -/
def w10 : World where
  isDir := fun p => p == "d" || p == "d/notes.md"
  isFile := fun _ => false
  listdir := fun p => if p == "d" then ["notes.md"] else []
  readFile := fun _ => .error "unread"
  removeOk := fun _ => true
  answer := ""

/-! ### Helper lemmas -/

theorem contains_eq_false_iff {l : List String} {a : String} :
    l.contains a = false ↔ a ∉ l := by
  constructor
  · intro h hm
    have ht : l.contains a = true := List.elem_iff.2 hm
    rw [ht] at h
    exact Bool.noConfusion h
  · intro hm
    cases h : l.contains a with
    | false => rfl
    | true => exact absurd (List.elem_iff.1 h) hm

theorem mem_unusedOf {all referenced : List String} {f : String} :
    f ∈ unusedOf all referenced ↔ f ∈ all ∧ f ∉ referenced := by
  simp only [unusedOf, List.mem_filter, Bool.not_eq_true']
  exact and_congr_right fun _ => contains_eq_false_iff

theorem mem_allFilesOf {w : World} {dir f : String} :
    f ∈ allFilesOf w dir ↔ f ∈ w.listdir dir ∧ w.isFile (joinPath dir f) = true := by
  simp only [allFilesOf, List.mem_filter]

theorem deleteLoop_eq (w : World) (dir : String) (l : List String) :
    deleteLoop w dir l =
      (((l.map (joinPath dir)).filter w.removeOk).length,
        (l.map (joinPath dir)).filter w.removeOk) := by
  induction l with
  | nil => rfl
  | cons f fs ih =>
    simp only [deleteLoop, List.map_cons, List.filter_cons]
    cases h : w.removeOk (joinPath dir f) with
    | true => simp [ih]
    | false => simp [ih]

theorem applyRemovals_nil (w : World) : applyRemovals w [] = w := by
  ext p
  · rfl
  · simp [applyRemovals]
  · simp [applyRemovals]
  · rfl
  · rfl
  · rfl

theorem applyRemovals_isDir (w : World) (r : List String) :
    (applyRemovals w r).isDir = w.isDir := rfl

theorem applyRemovals_readFile (w : World) (r : List String) :
    (applyRemovals w r).readFile = w.readFile := rfl

theorem applyRemovals_removeOk (w : World) (r : List String) :
    (applyRemovals w r).removeOk = w.removeOk := rfl

theorem applyRemovals_answer (w : World) (r : List String) :
    (applyRemovals w r).answer = w.answer := rfl

theorem allFilesOf_applyRemovals (w : World) (r : List String) (dir : String) :
    allFilesOf (applyRemovals w r) dir =
      (allFilesOf w dir).filter (fun f => !(r.contains (joinPath dir f))) := by
  simp only [allFilesOf, applyRemovals, List.filter_filter]
  refine List.filter_congr ?_
  intro f _
  cases w.isFile (joinPath dir f) <;> cases r.contains (joinPath dir f) <;> rfl

theorem unusedOf_filter (all referenced : List String) (p : String → Bool) :
    unusedOf (all.filter p) referenced = (unusedOf all referenced).filter p := by
  simp only [unusedOf, List.filter_filter]
  refine List.filter_congr ?_
  intro f _
  cases referenced.contains f <;> cases p f <;> rfl

theorem mem_insertSorted {x a : String} {l : List String} :
    a ∈ insertSorted x l ↔ a = x ∨ a ∈ l := by
  induction l with
  | nil => simp [insertSorted]
  | cons y ys ih =>
    simp only [insertSorted]
    split
    · simp
    · simp only [List.mem_cons, ih]
      tauto

theorem mem_sortStrings {a : String} {l : List String} :
    a ∈ sortStrings l ↔ a ∈ l := by
  induction l with
  | nil => simp [sortStrings]
  | cons x xs ih =>
    simp only [sortStrings, List.foldr_cons] at *
    rw [mem_insertSorted, ih]
    simp

theorem basenameL_no_slash (s : List Char) : '/' ∉ basenameL s := by
  intro hm
  rw [basenameL, List.mem_reverse] at hm
  have := List.mem_takeWhile_imp hm
  simp at this

/-- Every element the extractor records is the basename of some string:
each of the four patterns passes its capture through the basename
function. -/
theorem extract_elements_are_basenames {text : String} {r : String}
    (h : r ∈ extract_image_paths text) : r ≠ "" ∧ ∃ s, r = String.mk (basenameL s) := by
  rw [extract_image_paths] at h
  simp only [List.mem_dedup, List.mem_filter, List.mem_map, List.mem_append] at h
  obtain ⟨⟨cap, hcap, rfl⟩, hne⟩ := h
  refine ⟨by simpa using hne, ?_⟩
  rcases hcap with ((h1 | h2) | h3) | h4
  · obtain ⟨c, _, hc⟩ := h1
    exact ⟨_, by rw [← hc]⟩
  · obtain ⟨c, _, hc⟩ := h2
    exact ⟨_, by rw [← hc]⟩
  · obtain ⟨c, _, hc⟩ := h3
    exact ⟨_, by rw [← hc]⟩
  · obtain ⟨c, _, hc⟩ := h4
    exact ⟨_, by rw [← hc]⟩

/-- Shape of a successful `process_markdown` call: either an early return
with zero deletions and no removals, or the deletion loop's result on the
unused list of the document's asset directory. -/
theorem process_markdown_ok_shape {w : World} {md : String} {d y : Bool}
    {n : Nat} {removed : List String}
    (h : process_markdown w md d y = .ok (n, removed)) :
    (n = 0 ∧ removed = []) ∨
    ∃ text, w.readFile md = .ok text ∧
      (n, removed) = deleteLoop w (assetDirOf md)
        (unusedOf (allFilesOf w (assetDirOf md)) (extract_image_paths text)) := by
  unfold process_markdown at h
  split at h
  · exact absurd h (by simp)
  case _ text heq =>
    split at h
    · simp only [Except.ok.injEq, Prod.mk.injEq] at h
      exact Or.inl ⟨h.1.symm, h.2.symm⟩
    · split at h
      · simp only [Except.ok.injEq, Prod.mk.injEq] at h
        exact Or.inl ⟨h.1.symm, h.2.symm⟩
      · split at h
        · simp only [Except.ok.injEq, Prod.mk.injEq] at h
          exact Or.inl ⟨h.1.symm, h.2.symm⟩
        · split at h
          · simp only [Except.ok.injEq, Prod.mk.injEq] at h
            exact Or.inl ⟨h.1.symm, h.2.symm⟩
          · split at h
            · simp only [Except.ok.injEq, Prod.mk.injEq] at h
              exact Or.inl ⟨h.1.symm, h.2.symm⟩
            · simp only [Except.ok.injEq] at h
              exact Or.inr ⟨text, heq, h.symm⟩

/-! ### Claims -/

/-- C1: for every document the unused list is exactly the set difference
of the on-disk asset basenames and the extracted reference set, compared
by case-sensitive exact string equality; consequently a basename produced
by any extraction pattern is never unused, and a reference recorded as
Img.png does not protect an on-disk file named img.png. -/
theorem C1_unused_is_exact_set_difference :
    (∀ (all_files referenced : List String) (f : String),
        f ∈ unusedOf all_files referenced ↔ f ∈ all_files ∧ f ∉ referenced)
    ∧ (∀ (text : String) (all_files : List String) (f : String),
        f ∈ extract_image_paths text →
          f ∉ unusedOf all_files (extract_image_paths text))
    ∧ "Img.png" ∈ extract_image_paths "![x](Img.png)"
    ∧ "img.png" ∈ unusedOf ["img.png"] (extract_image_paths "![x](Img.png)") := by
  refine ⟨fun _ _ _ => mem_unusedOf, ?_, by decide, by decide⟩
  intro text all_files f hf hmem
  exact (mem_unusedOf.1 hmem).2 hf

theorem C1_witness :
    "keep.png" ∉ unusedOf ["keep.png", "stale.png"]
      (extract_image_paths "![x](doc.assets/keep.png)") :=
  C1_unused_is_exact_set_difference.2.1 _ _ _ (by decide)

/-- C9 counterexample: the extractor can return an element containing a
backslash — `os.path.basename` on POSIX only splits at forward slashes —
so, read with backslash as a path separator character, the claim fails. -/
theorem C9_counterexample :
    "a\\b.png" ∈ extract_image_paths "![x](a\\b.png)"
      ∧ '\\' ∈ "a\\b.png".data := ⟨by decide, by decide⟩

/-- C9 (amended): every element of the extracted reference set is
non-empty and contains no forward slash (each element is the POSIX
basename of some captured string); a backslash can remain. -/
theorem C9_elements_nonempty_no_forward_slash :
    ∀ (text r : String), r ∈ extract_image_paths text → r ≠ "" ∧ '/' ∉ r.data := by
  intro text r h
  obtain ⟨hne, s, hs⟩ := extract_elements_are_basenames h
  subst hs
  exact ⟨hne, basenameL_no_slash s⟩

theorem C9_witness :
    ("keep.png" : String) ≠ "" ∧ '/' ∉ ("keep.png" : String).data :=
  C9_elements_nonempty_no_forward_slash "![x](doc.assets/keep.png)" "keep.png" (by decide)

/-- C2: every path a `process_markdown` call removes is a regular-file
entry directly inside the asset directory computed for that document; the
directory predicate of the world is unchanged (no directory is deleted,
the asset directory survives), and replaying the removals never makes a
new path a file (nothing is created, moved or renamed). -/
theorem C2_removals_confined_to_asset_dir :
    ∀ (w : World) (md : String) (d y : Bool) (n : Nat) (removed : List String),
      process_markdown w md d y = .ok (n, removed) →
      (∀ p ∈ removed, ∃ f, f ∈ w.listdir (assetDirOf md)
          ∧ w.isFile (joinPath (assetDirOf md) f) = true
          ∧ p = joinPath (assetDirOf md) f)
      ∧ (applyRemovals w removed).isDir = w.isDir
      ∧ (∀ q, (applyRemovals w removed).isFile q = true → w.isFile q = true) := by
  intro w md d y n removed h
  refine ⟨?_, rfl, ?_⟩
  · intro p hp
    rcases process_markdown_ok_shape h with ⟨_, hrm⟩ | ⟨text, _, hdel⟩
    · subst hrm; cases hp
    · rw [deleteLoop_eq] at hdel
      have h2 := congrArg Prod.snd hdel
      simp only at h2
      rw [h2] at hp
      have hp2 := (List.mem_filter.1 hp).1
      obtain ⟨f, hfu, hfp⟩ := List.mem_map.1 hp2
      have hfa := mem_allFilesOf.1 (mem_unusedOf.1 hfu).1
      exact ⟨f, hfa.1, hfa.2, hfp.symm⟩
  · intro q hq
    simp only [applyRemovals, Bool.and_eq_true] at hq
    exact hq.1

theorem C2_witness :
    ∃ f, f ∈ w1.listdir (assetDirOf "doc.md")
      ∧ w1.isFile (joinPath (assetDirOf "doc.md") f) = true
      ∧ "doc.assets/stale.png" = joinPath (assetDirOf "doc.md") f :=
  (C2_removals_confined_to_asset_dir w1 "doc.md" false true 1
      ["doc.assets/stale.png"] rfl).1 "doc.assets/stale.png" (List.mem_singleton.2 rfl)

/-- A dry run either returns zero deletions with no removals, or
propagates the read error. -/
theorem process_markdown_dry (w : World) (md : String) (y : Bool) :
    process_markdown w md true y = .ok (0, []) ∨
      ∃ e, process_markdown w md true y = .error e := by
  unfold process_markdown
  split
  · exact Or.inr ⟨_, rfl⟩
  · split
    · exact Or.inl rfl
    · split
      · exact Or.inl rfl
      · split
        · exact Or.inl rfl
        · exact Or.inl rfl

/-- The run loop leaves the world untouched when every document is
processed in dry-run mode. -/
theorem runDocs_dry (w : World) (docs : List String) (y : Bool) :
    (runDocs w docs true y).2 = w := by
  induction docs generalizing w with
  | nil => rfl
  | cons md rest ih =>
    unfold runDocs
    rcases process_markdown_dry w md y with h | ⟨e, h⟩
    · rw [h]
      simp only
      rw [applyRemovals_nil]
      exact ih (w := w)
    · rw [h]
      exact ih (w := w)

/-- C3: in dry-run mode a processed document reports zero deletions and
removes nothing; replaying an empty removal list is the identity on the
world, and a whole dry run leaves the world of `main` unchanged. -/
theorem C3_dry_run_never_mutates :
    (∀ (w : World) (md : String) (y : Bool) (n : Nat) (removed : List String),
        process_markdown w md true y = .ok (n, removed) → n = 0 ∧ removed = [])
    ∧ (∀ w : World, applyRemovals w [] = w)
    ∧ (∀ (w : World) (paths : List String) (y : Bool),
        (mainRun w paths true y).2.2 = w) := by
  refine ⟨?_, applyRemovals_nil, ?_⟩
  · intro w md y n removed h
    rcases process_markdown_dry w md y with h2 | ⟨e, h2⟩
    · rw [h2] at h
      have := Except.ok.inj h
      exact ⟨(Prod.mk.inj this).1.symm, (Prod.mk.inj this).2.symm⟩
    · rw [h2] at h
      cases h
  · intro w paths y
    cases hc : (find_markdown_files w paths).isEmpty with
    | true => simp [mainRun, hc]
    | false => simp [mainRun, hc, runDocs_dry]

theorem C3_witness : (0 : Nat) = 0 ∧ ([] : List String) = [] :=
  C3_dry_run_never_mutates.1 w1 "doc.md" true 0 [] rfl

/-- C4: the deletion loop tries every unused file independently — its
result is exactly the sublist of attempted paths whose removal succeeds,
with the returned value the count of those successes — and a document
that reaches deletion with assume-yes returns exactly that loop's result,
so one failed removal aborts neither the batch nor the document. -/
theorem C4_failures_do_not_abort_batch :
    (∀ (w : World) (dir : String) (l : List String),
        deleteLoop w dir l =
          (((l.map (joinPath dir)).filter w.removeOk).length,
            (l.map (joinPath dir)).filter w.removeOk))
    ∧ (∀ (w : World) (md text : String),
        w.readFile md = .ok text →
        w.isDir (assetDirOf md) = true →
        allFilesOf w (assetDirOf md) ≠ [] →
        unusedOf (allFilesOf w (assetDirOf md)) (extract_image_paths text) ≠ [] →
        process_markdown w md false true =
          .ok (deleteLoop w (assetDirOf md)
            (unusedOf (allFilesOf w (assetDirOf md)) (extract_image_paths text)))) := by
  refine ⟨deleteLoop_eq, ?_⟩
  intro w md text hr hd hne hnu
  have h1 : (allFilesOf w (assetDirOf md)).isEmpty = false :=
    List.isEmpty_eq_false.2 hne
  have h2 : (unusedOf (allFilesOf w (assetDirOf md))
      (extract_image_paths text)).isEmpty = false :=
    List.isEmpty_eq_false.2 hnu
  unfold process_markdown
  rw [hr]
  simp [hd, h1, h2]

theorem C4_witness :
    process_markdown w4 "doc.md" false true = .ok (1, ["doc.assets/c.png"]) := by
  have h := C4_failures_do_not_abort_batch.2 w4 "doc.md" "no references here"
    rfl rfl (by decide) (by decide)
  rw [h]
  exact rfl

/-- C5 counterexample: with the operator reply holding a leading space,
the reply compared case-insensitively is neither of the affirmative
words, yet deletion proceeds — the code strips whitespace before the
comparison, so the claim's biconditional fails as stated. -/
theorem C5_counterexample :
    process_markdown w5 "doc.md" false false = .ok (1, ["doc.assets/stale.png"])
      ∧ pyLower w5.answer ≠ "y" ∧ pyLower w5.answer ≠ "yes" :=
  ⟨rfl, by decide, by decide⟩

/-- C5 (amended): in interactive mode, when deletion is reached, it
proceeds exactly when the operator's reply — after stripping surrounding
whitespace and lowercasing — equals y or yes; any other reply returns
zero deletions. -/
theorem C5_interactive_confirmation :
    ∀ (w : World) (md text : String),
      w.readFile md = .ok text →
      w.isDir (assetDirOf md) = true →
      allFilesOf w (assetDirOf md) ≠ [] →
      unusedOf (allFilesOf w (assetDirOf md)) (extract_image_paths text) ≠ [] →
      (confirmAffirmative w.answer =
          ((pyLower (pyStrip w.answer) = "y") || (pyLower (pyStrip w.answer) = "yes")))
      ∧ (confirmAffirmative w.answer = true →
          process_markdown w md false false =
            .ok (deleteLoop w (assetDirOf md)
              (unusedOf (allFilesOf w (assetDirOf md)) (extract_image_paths text))))
      ∧ (confirmAffirmative w.answer = false →
          process_markdown w md false false = .ok (0, [])) := by
  intro w md text hr hd hne hnu
  have h1 : (allFilesOf w (assetDirOf md)).isEmpty = false :=
    List.isEmpty_eq_false.2 hne
  have h2 : (unusedOf (allFilesOf w (assetDirOf md))
      (extract_image_paths text)).isEmpty = false :=
    List.isEmpty_eq_false.2 hnu
  refine ⟨rfl, ?_, ?_⟩
  · intro hc
    unfold process_markdown
    rw [hr]
    simp [hd, h1, h2, hc]
  · intro hc
    unfold process_markdown
    rw [hr]
    simp [hd, h1, h2, hc]

theorem C5_witness :
    process_markdown wYes "doc.md" false false =
      .ok (1, ["doc.assets/stale.png"]) := by
  have h := (C5_interactive_confirmation wYes "doc.md" "![x](doc.assets/keep.png)"
    rfl rfl (by decide) (by decide)).2.1 (by decide)
  rw [h]
  exact rfl

/-- C6: the exit code is one exactly when discovery finds no Markdown
file and zero otherwise, and a per-document error is absorbed at the
per-document boundary: the run loop continues with the remaining
documents and the same world; the loop itself is a total function, so no
exception escapes it. -/
theorem C6_exit_code_and_error_isolation :
    (∀ (w : World) (paths : List String) (d y : Bool),
        (mainRun w paths d y).1 =
          if find_markdown_files w paths = [] then 1 else 0)
    ∧ (∀ (w : World) (md : String) (rest : List String) (d y : Bool) (e : String),
        process_markdown w md d y = .error e →
        runDocs w (md :: rest) d y = runDocs w rest d y) := by
  constructor
  · intro w paths d y
    cases hc : (find_markdown_files w paths).isEmpty with
    | true => simp [mainRun, hc, List.isEmpty_iff.1 hc]
    | false =>
      have hne : find_markdown_files w paths ≠ [] := List.isEmpty_eq_false.1 hc
      simp [mainRun, hc, hne]
  · intro w md rest d y e h
    simp only [runDocs]
    rw [h]

theorem C6_witness :
    runDocs w1 ["bad.md", "doc.md"] false true = runDocs w1 ["doc.md"] false true :=
  C6_exit_code_and_error_isolation.2 w1 "bad.md" ["doc.md"] false true "missing" rfl

/-- C8: with both flags set, dry-run wins: the operator's reply is never
consulted (the result is invariant under changing it), the result equals
the dry-run-only result, and a successful call reports zero deletions and
removes nothing. -/
theorem C8_dry_run_takes_precedence :
    (∀ (w : World) (md a : String),
        process_markdown { w with answer := a } md true true =
          process_markdown w md true true)
    ∧ (∀ (w : World) (md : String),
        process_markdown w md true true = process_markdown w md true false)
    ∧ (∀ (w : World) (md : String) (n : Nat) (removed : List String),
        process_markdown w md true true = .ok (n, removed) →
          n = 0 ∧ removed = []) := by
  refine ⟨fun w md a => rfl, fun w md => rfl, ?_⟩
  intro w md n removed h
  rcases process_markdown_dry w md true with h2 | ⟨e, h2⟩
  · rw [h2] at h
    have := Except.ok.inj h
    exact ⟨(Prod.mk.inj this).1.symm, (Prod.mk.inj this).2.symm⟩
  · rw [h2] at h
    cases h

theorem C8_witness : (0 : Nat) = 0 ∧ ([] : List String) = [] :=
  C8_dry_run_takes_precedence.2.2 w1 "doc.md" 0 [] rfl

/-- C10: a string is discovered exactly when it comes from a directory
input through the extension filter alone — with no regular-file check on
the entry — or is itself a non-directory input that is a regular file
with the extension; concretely, a subdirectory of an input directory
named notes.md is discovered although it is not a file. -/
theorem C10_directory_entries_without_file_check :
    (∀ (w : World) (paths : List String) (q : String),
        q ∈ find_markdown_files w paths ↔
          ((∃ p, p ∈ paths ∧ w.isDir p = true ∧
              ∃ name, name ∈ w.listdir p ∧ lowerEndsWithMd name = true
                ∧ q = joinPath p name)
           ∨ (∃ p, p ∈ paths ∧ w.isDir p = false ∧ w.isFile p = true
                ∧ lowerEndsWithMd p = true ∧ q = p)))
    ∧ "d/notes.md" ∈ find_markdown_files w10 ["d"]
    ∧ w10.isFile "d/notes.md" = false := by
  refine ⟨?_, by decide, by decide⟩
  intro w paths q
  unfold find_markdown_files
  rw [mem_sortStrings, List.mem_flatMap]
  constructor
  · rintro ⟨p, hp, hq⟩
    by_cases hd : w.isDir p = true
    · rw [if_pos hd] at hq
      obtain ⟨name, hn, hj⟩ := List.mem_map.1 hq
      have hf := List.mem_filter.1 hn
      exact Or.inl ⟨p, hp, hd, name, hf.1, hf.2, hj.symm⟩
    · rw [if_neg hd] at hq
      cases hc : (w.isFile p && lowerEndsWithMd p) with
      | false => rw [if_neg (by simp [hc])] at hq; cases hq
      | true =>
        rw [if_pos (by simp [hc])] at hq
        rw [Bool.and_eq_true] at hc
        have hdf : w.isDir p = false := by
          cases hb : w.isDir p with
          | false => rfl
          | true => exact absurd hb hd
        exact Or.inr ⟨p, hp, hdf, hc.1, hc.2, (List.mem_singleton.1 hq)⟩
  · rintro (⟨p, hp, hd, name, hn, hm, hq⟩ | ⟨p, hp, hd, hf, hm, hq⟩)
    · refine ⟨p, hp, ?_⟩
      rw [if_pos hd]
      exact List.mem_map.2 ⟨name, List.mem_filter.2 ⟨hn, hm⟩, hq.symm⟩
    · refine ⟨p, hp, ?_⟩
      rw [if_neg (by simp [hd]), if_pos (by rw [Bool.and_eq_true]; exact ⟨hf, hm⟩)]
      exact List.mem_singleton.2 hq

/-- If no attempted removal can succeed, the deletion loop deletes
nothing. -/
theorem deleteLoop_all_fail {w : World} {dir : String} {l : List String}
    (h : ∀ f ∈ l, w.removeOk (joinPath dir f) = false) :
    deleteLoop w dir l = (0, []) := by
  rw [deleteLoop_eq]
  have hnil : (l.map (joinPath dir)).filter w.removeOk = [] := by
    refine List.filter_eq_nil_iff.mpr ?_
    intro p hp
    obtain ⟨f, hf, hj⟩ := List.mem_map.1 hp
    rw [← hj]
    simp [h f hf]
  rw [hnil]
  rfl

/-- Branch analysis of an assume-yes, non-dry `process_markdown` call:
either an early return with no removals (no asset directory, empty
listing, or empty unused list), or the removals are exactly the
successful removals of the unused list. -/
theorem process_markdown_yes_shape {w : World} {md text : String} {n : Nat}
    {removed : List String}
    (hr : w.readFile md = .ok text)
    (h : process_markdown w md false true = .ok (n, removed)) :
    (w.isDir (assetDirOf md) = false ∧ removed = []) ∨
    (w.isDir (assetDirOf md) = true ∧ allFilesOf w (assetDirOf md) = []
      ∧ removed = []) ∨
    (w.isDir (assetDirOf md) = true
      ∧ unusedOf (allFilesOf w (assetDirOf md)) (extract_image_paths text) = []
      ∧ removed = []) ∨
    (w.isDir (assetDirOf md) = true ∧
      removed = ((unusedOf (allFilesOf w (assetDirOf md))
          (extract_image_paths text)).map
        (joinPath (assetDirOf md))).filter w.removeOk) := by
  unfold process_markdown at h
  split at h
  case _ e heq => rw [hr] at heq; cases heq
  case _ t heq =>
    have htt : t = text := Except.ok.inj (hr.symm.trans heq).symm
    subst htt
    split at h
    case isTrue hc =>
      simp only [Except.ok.injEq, Prod.mk.injEq] at h
      exact Or.inl ⟨by simpa using hc, h.2.symm⟩
    case isFalse hc =>
      have hd : w.isDir (assetDirOf md) = true := by
        cases hb : w.isDir (assetDirOf md) with
        | true => rfl
        | false => exact absurd (by simp [hb]) hc
      split at h
      case isTrue hc2 =>
        simp only [Except.ok.injEq, Prod.mk.injEq] at h
        exact Or.inr (Or.inl ⟨hd, List.isEmpty_iff.1 hc2, h.2.symm⟩)
      case isFalse hc2 =>
        split at h
        case isTrue hc3 =>
          simp only [Except.ok.injEq, Prod.mk.injEq] at h
          exact Or.inr (Or.inr (Or.inl ⟨hd, List.isEmpty_iff.1 hc3, h.2.symm⟩))
        case isFalse hc3 =>
          split at h
          case isTrue hc4 => cases hc4
          case isFalse hc4 =>
            split at h
            case isTrue hc5 => exact absurd hc5.1 (by simp)
            case isFalse hc5 =>
              simp only [Except.ok.injEq] at h
              rw [deleteLoop_eq] at h
              have h2 := congrArg Prod.snd h.symm
              simp only at h2
              exact Or.inr (Or.inr (Or.inr ⟨hd, h2⟩))

/-- C7: running a document again with assume-yes after replaying the
first run's removals deletes nothing — the second call returns zero
deletions and an empty removal list — and a referenced basename is never
a deletion candidate in the first place. -/
theorem C7_second_run_deletes_nothing :
    ∀ (w : World) (md text : String) (n : Nat) (removed : List String),
      w.readFile md = .ok text →
      process_markdown w md false true = .ok (n, removed) →
      process_markdown (applyRemovals w removed) md false true = .ok (0, [])
      ∧ (∀ f, f ∈ extract_image_paths text →
          f ∉ unusedOf (allFilesOf w (assetDirOf md)) (extract_image_paths text)) := by
  intro w md text n removed hr h
  refine ⟨?_, fun f hf hmem => (mem_unusedOf.1 hmem).2 hf⟩
  have hr2 : (applyRemovals w removed).readFile md = .ok text := hr
  rcases process_markdown_yes_shape hr h with
    ⟨hd, hrm⟩ | ⟨hd, hfl, hrm⟩ | ⟨hd, hun, hrm⟩ | ⟨hd, hrm⟩
  · have hd2 : (applyRemovals w removed).isDir (assetDirOf md) = false := hd
    unfold process_markdown
    rw [hr2]
    simp [hd2]
  · have hd2 : (applyRemovals w removed).isDir (assetDirOf md) = true := hd
    have hfl2 : allFilesOf (applyRemovals w removed) (assetDirOf md) = [] := by
      rw [allFilesOf_applyRemovals, hfl]
      rfl
    unfold process_markdown
    rw [hr2]
    simp [hd2, hfl2]
  · subst hrm
    rw [applyRemovals_nil]
    unfold process_markdown
    rw [hr]
    cases hae : (allFilesOf w (assetDirOf md)).isEmpty with
    | true => simp [hd, hae]
    | false => simp [hd, hae, hun]
  · have hd2 : (applyRemovals w removed).isDir (assetDirOf md) = true := hd
    have hU2 : unusedOf (allFilesOf (applyRemovals w removed) (assetDirOf md))
        (extract_image_paths text) =
        (unusedOf (allFilesOf w (assetDirOf md)) (extract_image_paths text)).filter
          (fun f => !(removed.contains (joinPath (assetDirOf md) f))) := by
      rw [allFilesOf_applyRemovals, unusedOf_filter]
    have hkey : ∀ f ∈ unusedOf (allFilesOf (applyRemovals w removed) (assetDirOf md))
        (extract_image_paths text),
        (applyRemovals w removed).removeOk (joinPath (assetDirOf md) f) = false := by
      intro f hfm
      rw [hU2] at hfm
      have hf2 := List.mem_filter.1 hfm
      have hnc : removed.contains (joinPath (assetDirOf md) f) = false := by
        have hb := hf2.2
        cases hcc : removed.contains (joinPath (assetDirOf md) f) with
        | false => rfl
        | true => rw [hcc] at hb; cases hb
      have hnm := contains_eq_false_iff.1 hnc
      rw [applyRemovals_removeOk]
      cases hok : w.removeOk (joinPath (assetDirOf md) f) with
      | false => rfl
      | true =>
        exfalso
        apply hnm
        rw [hrm]
        exact List.mem_filter.2 ⟨List.mem_map.2 ⟨f, hf2.1, rfl⟩, hok⟩
    have hDL : deleteLoop (applyRemovals w removed) (assetDirOf md)
        (unusedOf (allFilesOf (applyRemovals w removed) (assetDirOf md))
          (extract_image_paths text)) = (0, []) := deleteLoop_all_fail hkey
    unfold process_markdown
    rw [hr2]
    cases hae : (allFilesOf (applyRemovals w removed) (assetDirOf md)).isEmpty with
    | true => simp [hd2, hae]
    | false =>
      cases hue : (unusedOf (allFilesOf (applyRemovals w removed) (assetDirOf md))
          (extract_image_paths text)).isEmpty with
      | true => simp [hd2, hae, hue]
      | false => simp [hd2, hae, hue, hDL]

theorem C7_witness :
    process_markdown (applyRemovals w1 ["doc.assets/stale.png"]) "doc.md" false true =
      .ok (0, []) :=
  (C7_second_run_deletes_nothing w1 "doc.md" "![x](doc.assets/keep.png)" 1
    ["doc.assets/stale.png"] rfl rfl).1

/-! ### Validation of the embedding on concrete inputs -/

example : extract_image_paths "![x](doc.assets/keep.png)" = ["keep.png"] := by decide
example : extract_image_paths "![x](Img.png)" = ["Img.png"] := by decide
example : "a\\b.png" ∈ extract_image_paths "![x](a\\b.png)" := by decide
example : extract_image_paths "<img alt='z' src=\"pics/cat.JPG\">" = ["cat.JPG"] := by decide
example : extract_image_paths "[1]: b.assets/one.png\n[2]: b.assets/two.jpg" =
    ["one.png", "two.jpg"] := by decide
example : extract_image_paths "see ![a](<x y.png>) and ![b](u.png \"t\")" =
    ["x", "u.png \"t\""] := by decide

example : splitext "doc.md" = ("doc", ".md") := by decide
example : splitext "notes/.md" = ("notes/.md", "") := by decide
example : splitext "a/b.c/d" = ("a/b.c/d", "") := by decide
example : joinPath "doc.assets" "keep.png" = "doc.assets/keep.png" := by decide

example : process_markdown w1 "doc.md" false true =
    .ok (1, ["doc.assets/stale.png"]) := rfl
example : process_markdown w1 "doc.md" true true = .ok (0, []) := rfl
example : process_markdown w4 "doc.md" false true =
    .ok (1, ["doc.assets/c.png"]) := rfl
example : process_markdown w5 "doc.md" false false =
    .ok (1, ["doc.assets/stale.png"]) := rfl
example : process_markdown w1 "bad.md" false true = .error "missing" := rfl
example : find_markdown_files w10 ["d"] = ["d/notes.md"] := rfl
